import Mathlib

/-!
Verification of the wordlist generator and password analyzer in `src/main.py`.

Strings are modelled as `List Char` (named `Str`); Python's per-character
case operations are modelled with `Char.toLower` / `Char.toUpper`, which agree
with Python on ASCII text. Python sets of strings become `Finset Str`; loops
that insert into a set become folds with `insert` (or, where the loop's net
effect is a union that does not depend on iteration order, the union itself).
The system clock read `datetime.now().year` is modelled as an explicit
`current : Int` parameter. List indexing `seq[pos]` at an in-range position is
modelled as `List.getD pos ' '`.
-/

namespace WordlistGen

abbrev Str := List Char

/-- Python `str.strip()`: drop whitespace from both ends. -/
def pyStrip (s : Str) : Str :=
  ((s.dropWhile Char.isWhitespace).reverse.dropWhile Char.isWhitespace).reverse

/-- Python `str.lower()` (per-character, ASCII). -/
def pyLower (s : Str) : Str := s.map Char.toLower

/-- Python `str.upper()` (per-character, ASCII). -/
def pyUpper (s : Str) : Str := s.map Char.toUpper

/-- Python `str.capitalize()`: first character uppercased, the rest lowercased. -/
def pyCapitalize : Str → Str
  | [] => []
  | c :: cs => c.toUpper :: cs.map Char.toLower

/-- The `LEET_MAP` table of `main.py`, as the total function
`ch ↦ LEET_MAP.get(ch, [])`; a character is a key of `LEET_MAP` iff its
image here is nonempty (every value list in the table is nonempty). -/
def leetMap : Char → List Char
  | 'a' => ['@', '4']
  | 'b' => ['8']
  | 'e' => ['3']
  | 'i' => ['1', '!']
  | 'l' => ['1', '|']
  | 'o' => ['0']
  | 's' => ['$', '5']
  | 't' => ['7']
  | _ => []

/-- One pass of the inner loop of `leet_variations` over a substitution
position `pos`: `new_seqs` collects, for every partial sequence, one copy per
substitute glyph of the lowercased character at `pos`; the guard
`if new_seqs: seqs = new_seqs` keeps the old sequences when nothing was
produced. -/
def applyPos (seqs : List Str) (pos : Nat) : List Str :=
  let newSeqs := seqs.flatMap
    (fun seq => (leetMap (seq.getD pos ' ').toLower).map (fun s => seq.set pos s))
  if newSeqs.isEmpty then seqs else newSeqs

/-- The sequences built from `token` by substituting at every position of
`comb` in turn (the body of `for comb in itertools.combinations(...)`). -/
def subSeqs (token : Str) (comb : List Nat) : List Str :=
  comb.foldl applyPos [token]

/-- Positions of `token` whose lowercased character is a `LEET_MAP` key:
`[i for i, ch in enumerate(lower) if ch in LEET_MAP]`. -/
def mappablePositions (token : Str) : List Nat :=
  (List.range token.length).filter
    (fun i => !(leetMap ((token.map Char.toLower).getD i ' ')).isEmpty)

/-- `leet_variations` from `main.py`.  `itertools.combinations(positions, r)`
enumerates exactly the length-`r` sublists of `positions`, modelled by
`List.sublistsLen r positions`; `range(1, min(max_subs, len(positions)) + 1)`
is `List.range' 1 (min max_subs positions.length)`.  The accumulating set
`variants` starts as the singleton of the stripped token. -/
def leet_variations (tok : Str) (max_subs : Nat := 2) : Finset Str :=
  let token := pyStrip tok
  if token.isEmpty then ∅
  else
    let positions := mappablePositions token
    insert token
      (((List.range' 1 (min max_subs positions.length)).flatMap (fun r =>
        (List.sublistsLen r positions).flatMap (fun comb => subSeqs token comb))).toFinset)

/-- Membership in the set that claim C1 and the spec describe for
`leet_variations` (transcribed from the spec's words, to be compared with the
code's result): the trimmed token itself, or any string obtained by choosing
a subset `S` of the mappable positions with `1 ≤ |S| ≤ min(max_subs,
number of mappable positions)` and replacing the character at each chosen
position by one of the mapped glyphs of its lowercase form, leaving every
other position unchanged. -/
def LeetSpecMem (token : Str) (max_subs : Nat) (v : Str) : Prop :=
  v = token ∨ ∃ S : Finset Nat,
    (∀ i ∈ S, i ∈ mappablePositions token) ∧
    1 ≤ S.card ∧ S.card ≤ min max_subs (mappablePositions token).length ∧
    v.length = token.length ∧
    (∀ i ∈ S, v.getD i ' ' ∈ leetMap ((token.getD i ' ').toLower)) ∧
    (∀ i, i ∉ S → v.getD i ' ' = token.getD i ' ')

/-- Python `range(a, b)` over integers. -/
def intRange (a b : Int) : List Int :=
  (List.range (b - a).toNat).map (fun i : Nat => a + (i : Int))

/-- Python `str(y)` for an integer `y`. -/
def intStr (y : Int) : Str :=
  if y < 0 then '-' :: Nat.toDigits 10 (-y).toNat else Nat.toDigits 10 y.toNat

/-- `append_recent_years` from `main.py`; `current` models
`datetime.now().year`. -/
def append_recent_years (tok : Str) (years_back : Int) (current : Int) : Finset Str :=
  let token := pyStrip tok
  if token.isEmpty then ∅
  else
    let years := ((intRange (current - years_back + 1) (current + 1)).map intStr).toFinset
    years.image (fun y => token ++ y)

/-- The character-pool accumulation of the fallback branch of
`analyze_password`. -/
def fallback_pool (p : Str) : Nat :=
  (if p.any Char.isLower then 26 else 0) + (if p.any Char.isUpper then 26 else 0) +
    (if p.any Char.isDigit then 10 else 0) +
    (if p.any (fun c => !c.isAlphanum) then 32 else 0)

/-- Binary digit count by fuelled halving (structural, so it evaluates in the
kernel). -/
def bitLenAux : Nat → Nat → Nat
  | 0, _ => 0
  | fuel + 1, n => if n = 0 then 0 else bitLenAux fuel (n / 2) + 1

/-- Python `int.bit_length()` on naturals: the number of binary digits. -/
def pyBitLength (n : Nat) : Nat := bitLenAux n n

/-- `analyze_password` from `main.py` on the fallback path (the `zxcvbn`
collaborator unavailable), restricted to the `(score, entropy)` pair it
returns: `None` score and zero entropy for an empty password, otherwise the
bucketed score and `len(password) * pool.bit_length()`. -/
def analyze_password (p : Str) : Option Nat × Nat :=
  if p.isEmpty then (none, 0)
  else
    let pool := fallback_pool p
    let entropy := p.length * pyBitLength pool
    let score : Nat :=
      if entropy < 28 then 0
      else if entropy < 36 then 1
      else if entropy < 60 then 2
      else if entropy < 90 then 3
      else 4
    (some score, entropy)

/-- Token cleaning in `generate_wordlist`:
`[t.strip() for t in tokens if t and t.strip()]`. -/
def clean_tokens_of (tokens : List Str) : List Str :=
  (tokens.filter (fun t => !t.isEmpty && !(pyStrip t).isEmpty)).map pyStrip

/-- The fixed suffix catalog `common_suffixes` of `generate_wordlist`. -/
def common_suffixes : List Str :=
  [['1', '2', '3'], ['!'], ['@'], ['2', '0', '2', '0'], ['2', '0', '2', '1'],
    ['2', '0', '2', '2']]

/-- The body of the per-token loop of `generate_wordlist`: add the token and
its three case variants, every leet variant and its lowercase, and (when
`ay`) every year-suffixed variant and its lowercase.  Iterating a set `V`
adding `v` and `v.lower()` for each member has net effect `∪ V ∪ image pyLower V`. -/
def add_token_step (ay : Bool) (current : Int) (acc : Finset Str) (t : Str) : Finset Str :=
  let a4 := insert (pyCapitalize t) (insert (pyUpper t) (insert (pyLower t) (insert t acc)))
  let a5 := a4 ∪ leet_variations t 2 ∪ (leet_variations t 2).image pyLower
  if ay then
    a5 ∪ append_recent_years t 10 current ∪ (append_recent_years t 10 current).image pyLower
  else a5

/-- The candidate set after the per-token loop of `generate_wordlist`. -/
def base_set (ts : List Str) (ay : Bool) (current : Int) : Finset Str :=
  ts.foldl (add_token_step ay current) ∅

/-- `itertools.permutations(l, 2)`: every ordered pair of DISTINCT POSITIONS
of `l` (values at distinct positions may coincide). -/
def perm2 {α : Type} : List α → List (α × α)
  | [] => []
  | x :: xs => (xs.map (fun y => (x, y))) ++ (xs.map (fun y => (y, x))) ++ perm2 xs

/-- The pairwise-combination loop of `generate_wordlist`: for each pair
`(a, b)` add `a + b` and `a + "_" + b`. -/
def pair_step (ts : List Str) (S : Finset Str) : Finset Str :=
  (perm2 ts).foldl
    (fun acc p => insert (p.1 ++ '_' :: p.2) (insert (p.1 ++ p.2) acc)) S

/-- The common-suffix loop of `generate_wordlist`: iterate a snapshot
`list(results)` of the set taken before the loop (the Python snapshot order is
unspecified; the sorted order is used here, and `suffix_step_eq` below shows
the result is snapshot-order independent), adding `base + s` for every suffix. -/
def suffix_step (S : Finset Str) : Finset Str :=
  (S.sort (· ≤ ·)).foldl
    (fun acc base => common_suffixes.foldl (fun a s => insert (base ++ s) a) acc) S

/-- The full candidate set accumulated by `generate_wordlist` before the size
cap. -/
def candidate_set (tokens : List Str) (ay ics : Bool) (current : Int) : Finset Str :=
  let ct := clean_tokens_of tokens
  let S2 := pair_step ct (base_set ct ay current)
  if ics then suffix_step S2 else S2

/-- `generate_wordlist` from `main.py`: accumulate candidates, truncate the
sorted listing to `max_words` entries when the set is larger, and return the
sorted listing. -/
def generate_wordlist (tokens : List Str) (max_words : Nat) (ay ics : Bool)
    (current : Int) : List Str :=
  let results := candidate_set tokens ay ics current
  let capped :=
    if max_words < results.card then ((results.sort (· ≤ ·)).take max_words).toFinset
    else results
  capped.sort (· ≤ ·)

/-! ### Helper lemmas -/

theorem getD_set_self {l : Str} {i : Nat} (h : i < l.length) (a d : Char) :
    (l.set i a).getD i d = a := by
  rw [List.getD_eq_getElem?_getD, List.getElem?_set_self h]; rfl

theorem getD_set_ne {l : Str} {i j : Nat} (h : i ≠ j) (a d : Char) :
    (l.set i a).getD j d = l.getD j d := by
  rw [List.getD_eq_getElem?_getD, List.getElem?_set_ne h, ← List.getD_eq_getElem?_getD]

theorem list_eq_of_getD : ∀ (a b : Str), a.length = b.length →
    (∀ i, a.getD i ' ' = b.getD i ' ') → a = b
  | [], [], _, _ => rfl
  | [], _ :: _, h, _ => by simp at h
  | _ :: _, [], h, _ => by simp at h
  | x :: xs, y :: ys, h, hg => by
    have h0 := hg 0
    rw [List.getD_cons_zero, List.getD_cons_zero] at h0
    have ht := list_eq_of_getD xs ys (by simpa using h) (fun i => by
      have hi := hg (i + 1)
      rwa [List.getD_cons_succ, List.getD_cons_succ] at hi)
    rw [h0, ht]

theorem foldl_insert_eq {β γ : Type} [DecidableEq β] (f : γ → β) :
    ∀ (l : List γ) (S : Finset β),
      l.foldl (fun a x => insert (f x) a) S = S ∪ (l.map f).toFinset
  | [], S => by simp
  | x :: xs, S => by
    rw [List.foldl_cons, foldl_insert_eq f xs]
    ext b
    simp only [Finset.mem_union, Finset.mem_insert, List.mem_toFinset, List.map_cons,
      List.mem_cons]
    tauto

theorem foldl_insert2_eq (f g : Str × Str → Str) :
    ∀ (l : List (Str × Str)) (S : Finset Str),
      l.foldl (fun acc p => insert (g p) (insert (f p) acc)) S
        = S ∪ (l.flatMap (fun p => [f p, g p])).toFinset
  | [], S => by simp
  | x :: xs, S => by
    rw [List.foldl_cons, foldl_insert2_eq f g xs]
    ext b
    simp only [Finset.mem_union, Finset.mem_insert, List.mem_toFinset, List.flatMap_cons,
      List.mem_append, List.mem_cons, List.not_mem_nil, or_false]
    tauto

theorem foldl_suffix_eq :
    ∀ (l : List Str) (S : Finset Str),
      l.foldl (fun acc base => common_suffixes.foldl (fun a s => insert (base ++ s) a) acc) S
        = S ∪ (l.flatMap (fun base => common_suffixes.map (base ++ ·))).toFinset
  | [], S => by simp
  | b :: bs, S => by
    rw [List.foldl_cons, foldl_insert_eq (b ++ ·) common_suffixes S, foldl_suffix_eq bs]
    ext x
    simp only [Finset.mem_union, List.mem_toFinset, List.flatMap_cons, List.mem_append]
    tauto

theorem bitLenAux_eq : ∀ (fuel n : Nat), n ≤ fuel →
    bitLenAux fuel n = if n = 0 then 0 else Nat.log2 n + 1
  | 0, 0, _ => rfl
  | 0, n + 1, h => absurd h (by omega)
  | fuel + 1, n, h => by
    unfold bitLenAux
    by_cases hn : n = 0
    · simp [hn]
    · rw [if_neg hn, bitLenAux_eq fuel (n / 2) (by omega), if_neg hn]
      by_cases h2 : n / 2 = 0
      · have h1 : n = 1 := by omega
        subst h1
        rw [if_pos rfl, Nat.log2, if_neg (by omega)]
      · rw [if_neg h2]
        have hl : Nat.log2 n = Nat.log2 (n / 2) + 1 := by
          rw [Nat.log2, if_pos (by omega)]
        omega

theorem pyBitLength_eq (n : Nat) :
    pyBitLength n = if n = 0 then 0 else Nat.log2 n + 1 :=
  bitLenAux_eq n n le_rfl

theorem mem_iff_getD {α : Type} (d : α) : ∀ (l : List α) (a : α),
    a ∈ l ↔ ∃ i, i < l.length ∧ l.getD i d = a
  | [], a => by simp
  | x :: xs, a => by
    simp only [List.mem_cons, mem_iff_getD d xs]
    constructor
    · rintro (rfl | ⟨i, h, rfl⟩)
      · exact ⟨0, by simp, rfl⟩
      · exact ⟨i + 1, by simpa using h, rfl⟩
    · rintro ⟨i, h, rfl⟩
      cases i with
      | zero => exact Or.inl rfl
      | succ i => exact Or.inr ⟨i, by simpa using h, rfl⟩

theorem mem_perm2 {α : Type} (d : α) : ∀ (l : List α) (p : α × α),
    p ∈ perm2 l ↔ ∃ i j, i < l.length ∧ j < l.length ∧ i ≠ j ∧
      p.1 = l.getD i d ∧ p.2 = l.getD j d
  | [], p => by simp [perm2]
  | x :: xs, ⟨p1, p2⟩ => by
    simp only [perm2, List.mem_append, List.mem_map]
    constructor
    · rintro ((⟨y, hy, he⟩ | ⟨y, hy, he⟩) | hp)
      · injection he with he1 he2
        subst he1; subst he2
        obtain ⟨j, hj, rfl⟩ := (mem_iff_getD d xs y).mp hy
        exact ⟨0, j + 1, by simp, by simpa using Nat.succ_lt_succ hj, by omega,
          by simp, by simp [List.getD_cons_succ]⟩
      · injection he with he1 he2
        subst he1; subst he2
        obtain ⟨i, hi, rfl⟩ := (mem_iff_getD d xs y).mp hy
        exact ⟨i + 1, 0, by simpa using Nat.succ_lt_succ hi, by simp, by omega,
          by simp [List.getD_cons_succ], by simp⟩
      · obtain ⟨i, j, hi, hj, hij, h1, h2⟩ := (mem_perm2 d xs ⟨p1, p2⟩).mp hp
        exact ⟨i + 1, j + 1, by simpa using Nat.succ_lt_succ hi,
          by simpa using Nat.succ_lt_succ hj, by omega,
          by simpa [List.getD_cons_succ] using h1,
          by simpa [List.getD_cons_succ] using h2⟩
    · rintro ⟨i, j, hi, hj, hij, h1, h2⟩
      have h1' : p1 = (x :: xs).getD i d := h1
      have h2' : p2 = (x :: xs).getD j d := h2
      subst h1'; subst h2'
      cases i with
      | zero =>
        cases j with
        | zero => omega
        | succ j =>
          refine Or.inl (Or.inl ⟨xs.getD j d,
            (mem_iff_getD d xs _).mpr ⟨j, by simpa using hj, rfl⟩, ?_⟩)
          simp [List.getD_cons_zero, List.getD_cons_succ]
      | succ i =>
        cases j with
        | zero =>
          refine Or.inl (Or.inr ⟨xs.getD i d,
            (mem_iff_getD d xs _).mpr ⟨i, by simpa using hi, rfl⟩, ?_⟩)
          simp [List.getD_cons_zero, List.getD_cons_succ]
        | succ j =>
          refine Or.inr ((mem_perm2 d xs _).mpr
            ⟨i, j, by simpa using hi, by simpa using hj, by omega, ?_, ?_⟩)
          · simp [List.getD_cons_succ]
          · simp [List.getD_cons_succ]

theorem perm2_ne_of_nodup {α : Type} : ∀ {l : List α}, l.Nodup →
    ∀ p ∈ perm2 l, p.1 ≠ p.2
  | [], _, p, hp => by simp [perm2] at hp
  | x :: xs, h, p, hp => by
    simp only [perm2, List.mem_append, List.mem_map] at hp
    rcases hp with (⟨y, hy, he⟩ | ⟨y, hy, he⟩) | hp
    · subst he
      intro hxy
      have hxy' : x = y := hxy
      subst hxy'
      exact (List.nodup_cons.mp h).1 hy
    · subst he
      intro hxy
      have hxy' : y = x := hxy
      subst hxy'
      exact (List.nodup_cons.mp h).1 hy
    · exact perm2_ne_of_nodup (List.nodup_cons.mp h).2 p hp

theorem suffix_step_eq (S : Finset Str) :
    suffix_step S =
      S ∪ S.biUnion (fun base => (common_suffixes.map (fun s => base ++ s)).toFinset) := by
  unfold suffix_step
  rw [foldl_suffix_eq]
  ext x
  simp only [Finset.mem_union, List.mem_toFinset, List.mem_flatMap, Finset.mem_sort,
    Finset.mem_biUnion, List.mem_map]

theorem pair_step_eq (ts : List Str) (S : Finset Str) :
    pair_step ts S = S ∪ ((perm2 ts).flatMap
      (fun p => [p.1 ++ p.2, p.1 ++ '_' :: p.2])).toFinset :=
  foldl_insert2_eq (fun p => p.1 ++ p.2) (fun p => p.1 ++ '_' :: p.2) (perm2 ts) S

theorem sort_take_eq (S : Finset Str) (N : Nat) :
    ((S.sort (· ≤ ·)).take N).toFinset.sort (· ≤ ·) = (S.sort (· ≤ ·)).take N := by
  have hnd : ((S.sort (· ≤ ·)).take N).Nodup :=
    List.Nodup.sublist (List.take_sublist N _) (Finset.sort_nodup _ S)
  have hsorted : List.Sorted (· ≤ ·) ((S.sort (· ≤ ·)).take N) :=
    List.Pairwise.sublist (List.take_sublist N _) (Finset.sort_sorted _ S)
  have hval : (((S.sort (· ≤ ·)).take N).toFinset.val : Multiset Str) =
      ↑((S.sort (· ≤ ·)).take N) := by
    rw [← List.toFinset_eq hnd]
  have hperm : (((S.sort (· ≤ ·)).take N).toFinset.sort (· ≤ ·)).Perm
      ((S.sort (· ≤ ·)).take N) := by
    rw [← Multiset.coe_eq_coe]
    show ↑(Multiset.sort (· ≤ ·) ((S.sort (· ≤ ·)).take N).toFinset.val) =
      (↑((S.sort (· ≤ ·)).take N) : Multiset Str)
    rw [Multiset.sort_eq, hval]
  exact List.eq_of_perm_of_sorted hperm (Finset.sort_sorted _ _) hsorted

theorem add_token_acc_subset (ay : Bool) (cur : Int) (acc : Finset Str) (t : Str) :
    acc ⊆ add_token_step ay cur acc t := by
  intro x hx
  cases ay <;> simp [add_token_step, hx]

theorem add_token_mem_self (ay : Bool) (cur : Int) (acc : Finset Str) (t : Str) :
    t ∈ add_token_step ay cur acc t ∧ pyLower t ∈ add_token_step ay cur acc t ∧
    pyUpper t ∈ add_token_step ay cur acc t ∧
    pyCapitalize t ∈ add_token_step ay cur acc t ∧
    ∀ v ∈ leet_variations t 2, v ∈ add_token_step ay cur acc t := by
  refine ⟨?_, ?_, ?_, ?_, fun v hv => ?_⟩ <;> cases ay <;> simp [add_token_step] <;> tauto

theorem foldl_add_token_superset (ay : Bool) (cur : Int) :
    ∀ (ts : List Str) (acc : Finset Str), acc ⊆ ts.foldl (add_token_step ay cur) acc
  | [], acc => Finset.Subset.refl acc
  | t :: ts, acc =>
    (add_token_acc_subset ay cur acc t).trans (foldl_add_token_superset ay cur ts _)

theorem mem_foldl_add_token (ay : Bool) (cur : Int) (x : Str) :
    ∀ (ts : List Str) (acc : Finset Str) (t : Str), t ∈ ts →
      (∀ a : Finset Str, x ∈ add_token_step ay cur a t) →
      x ∈ ts.foldl (add_token_step ay cur) acc
  | [], _, t, ht, _ => absurd ht (List.not_mem_nil t)
  | u :: ts, acc, t, ht, hx => by
    rw [List.foldl_cons]
    rcases List.mem_cons.mp ht with rfl | ht'
    · exact foldl_add_token_superset ay cur ts _ (hx acc)
    · exact mem_foldl_add_token ay cur x ts _ t ht' hx

theorem mem_candidate_set_of_base (tokens : List Str) (ay ics : Bool) (cur : Int)
    (x : Str) (hx : x ∈ base_set (clean_tokens_of tokens) ay cur) :
    x ∈ candidate_set tokens ay ics cur := by
  have h2 : x ∈ pair_step (clean_tokens_of tokens)
      (base_set (clean_tokens_of tokens) ay cur) := by
    rw [pair_step_eq]
    exact Finset.mem_union_left _ hx
  simp only [candidate_set]
  cases ics
  · rw [if_neg (by simp)]
    exact h2
  · rw [if_pos rfl, suffix_step_eq]
    exact Finset.mem_union_left _ h2

theorem mem_clean_tokens (tokens : List Str) (t : Str) (ht : t ∈ tokens)
    (hne : pyStrip t ≠ []) : pyStrip t ∈ clean_tokens_of tokens := by
  unfold clean_tokens_of
  refine List.mem_map.mpr ⟨t, List.mem_filter.mpr ⟨ht, ?_⟩, rfl⟩
  have ht0 : t ≠ [] := by
    intro h
    exact hne (by simp [h, pyStrip])
  simp [ht0, hne]

theorem applyPos_nil (pos : Nat) : applyPos [] pos = [] := rfl

theorem applyPos_eq (seqs : List Str) (pos : Nat)
    (h : ∀ s ∈ seqs, leetMap ((s.getD pos ' ').toLower) ≠ []) :
    applyPos seqs pos = seqs.flatMap
      (fun seq => (leetMap ((seq.getD pos ' ').toLower)).map (fun g => seq.set pos g)) := by
  simp only [applyPos]
  cases seqs with
  | nil => simp
  | cons a as =>
    rw [if_neg]
    rw [List.isEmpty_iff, List.flatMap_cons]
    intro hcon
    have ha : (leetMap ((a.getD pos ' ').toLower)).map (fun g => a.set pos g) = [] :=
      (List.append_eq_nil.mp hcon).1
    rw [List.map_eq_nil_iff] at ha
    exact h a (List.mem_cons_self a as) ha

theorem foldl_applyPos_nil : ∀ c : List Nat, c.foldl applyPos [] = []
  | [] => rfl
  | p :: c => by rw [List.foldl_cons, applyPos_nil]; exact foldl_applyPos_nil c

theorem foldl_applyPos_flatMap :
    ∀ (c : List Nat), c.Nodup →
      ∀ (seqs : List Str),
        (∀ s ∈ seqs, ∀ i ∈ c, i < s.length ∧ leetMap ((s.getD i ' ').toLower) ≠ []) →
        c.foldl applyPos seqs = seqs.flatMap (fun s => c.foldl applyPos [s])
  | [], _, seqs, _ => by simp
  | p :: c, hnd, seqs, h => by
    obtain ⟨hp, hc⟩ := List.nodup_cons.mp hnd
    have hpg : ∀ s ∈ seqs, leetMap ((s.getD p ' ').toLower) ≠ [] :=
      fun s hs => (h s hs p (List.mem_cons_self p c)).2
    rw [List.foldl_cons, applyPos_eq seqs p hpg]
    have hstep : ∀ s' ∈ seqs.flatMap
        (fun seq => (leetMap ((seq.getD p ' ').toLower)).map (fun g => seq.set p g)),
        ∀ i ∈ c, i < s'.length ∧ leetMap ((s'.getD i ' ').toLower) ≠ [] := by
      intro s' hs' i hi
      rw [List.mem_flatMap] at hs'
      obtain ⟨s, hs, hs'm⟩ := hs'
      rw [List.mem_map] at hs'm
      obtain ⟨g, _, rfl⟩ := hs'm
      have hip : p ≠ i := fun he => hp (he ▸ hi)
      refine ⟨?_, ?_⟩
      · rw [List.length_set]
        exact (h s hs i (List.mem_cons_of_mem p hi)).1
      · rw [getD_set_ne hip]
        exact (h s hs i (List.mem_cons_of_mem p hi)).2
    rw [foldl_applyPos_flatMap c hc _ hstep, List.flatMap_assoc]
    refine (List.flatMap_congr ?_).symm
    intro s hs
    rw [List.foldl_cons, applyPos_eq [s] p
      (fun s' hs' => by rw [List.mem_singleton] at hs'; rw [hs']; exact hpg s hs),
      List.flatMap_singleton]
    exact foldl_applyPos_flatMap c hc _
      (fun s' hs' => hstep s' (List.mem_flatMap.mpr ⟨s, hs, hs'⟩))

theorem mem_subSeqs : ∀ (c : List Nat) (base : Str), c.Nodup →
    (∀ i ∈ c, i < base.length ∧ leetMap ((base.getD i ' ').toLower) ≠ []) →
    ∀ s : Str, s ∈ subSeqs base c ↔ (s.length = base.length ∧
      (∀ i ∈ c, s.getD i ' ' ∈ leetMap ((base.getD i ' ').toLower)) ∧
      (∀ i, i ∉ c → s.getD i ' ' = base.getD i ' '))
  | [], base, _, _, s => by
    simp only [subSeqs, List.foldl_nil, List.mem_singleton]
    constructor
    · rintro rfl
      exact ⟨rfl, by simp, fun i _ => rfl⟩
    · rintro ⟨hl, _, hall⟩
      exact list_eq_of_getD s base hl (fun i => hall i (List.not_mem_nil i))
  | p :: c, base, hnd, h, s => by
    obtain ⟨hp, hc⟩ := List.nodup_cons.mp hnd
    have hpb := h p (List.mem_cons_self p c)
    have hset : ∀ g : Char, ∀ i ∈ c, i < (base.set p g).length ∧
        leetMap (((base.set p g).getD i ' ').toLower) ≠ [] := by
      intro g i hi
      have hip : p ≠ i := fun he => hp (he ▸ hi)
      refine ⟨?_, ?_⟩
      · rw [List.length_set]
        exact (h i (List.mem_cons_of_mem p hi)).1
      · rw [getD_set_ne hip]
        exact (h i (List.mem_cons_of_mem p hi)).2
    simp only [subSeqs, List.foldl_cons]
    rw [applyPos_eq [base] p
        (fun s' hs' => by rw [List.mem_singleton] at hs'; subst hs'; exact hpb.2),
      List.flatMap_singleton,
      foldl_applyPos_flatMap c hc _
        (fun s' hs' => by
          rw [List.mem_map] at hs'
          obtain ⟨g, _, rfl⟩ := hs'
          exact hset g),
      List.mem_flatMap]
    constructor
    · rintro ⟨a, ha, hs⟩
      rw [List.mem_map] at ha
      obtain ⟨g, hg, rfl⟩ := ha
      rw [show c.foldl applyPos [base.set p g] = subSeqs (base.set p g) c from rfl,
        mem_subSeqs c (base.set p g) hc (hset g) s] at hs
      obtain ⟨hl, hin, hout⟩ := hs
      refine ⟨by rw [hl, List.length_set], ?_, ?_⟩
      · intro i hi
        rcases List.mem_cons.mp hi with rfl | hi'
        · rw [hout i hp, getD_set_self hpb.1]
          exact hg
        · have hip : p ≠ i := fun he => hp (he ▸ hi')
          rw [← getD_set_ne hip g ' ']
          exact hin i hi'
      · intro i hi
        have hip : p ≠ i := fun he => hi (he ▸ List.mem_cons_self p c)
        have hic : i ∉ c := fun he => hi (List.mem_cons_of_mem p he)
        rw [hout i hic, getD_set_ne hip]
    · rintro ⟨hl, hin, hout⟩
      have hg : s.getD p ' ' ∈ leetMap ((base.getD p ' ').toLower) :=
        hin p (List.mem_cons_self p c)
      refine ⟨base.set p (s.getD p ' '), List.mem_map.mpr ⟨s.getD p ' ', hg, rfl⟩, ?_⟩
      rw [show c.foldl applyPos [base.set p (s.getD p ' ')] =
          subSeqs (base.set p (s.getD p ' ')) c from rfl,
        mem_subSeqs c (base.set p (s.getD p ' ')) hc (hset _) s]
      refine ⟨by rw [hl, List.length_set], ?_, ?_⟩
      · intro i hi
        have hip : p ≠ i := fun he => hp (he ▸ hi)
        rw [getD_set_ne hip]
        exact hin i (List.mem_cons_of_mem p hi)
      · intro i hic
        by_cases hip : p = i
        · subst hip
          rw [getD_set_self hpb.1]
        · rw [getD_set_ne hip]
          exact hout i (fun he => (List.mem_cons.mp he).elim (fun h1 => hip h1.symm) hic)

theorem mappablePositions_nodup (token : Str) : (mappablePositions token).Nodup :=
  List.Nodup.filter _ (List.nodup_range _)

theorem positions_sound (token : Str) :
    ∀ i ∈ mappablePositions token,
      i < token.length ∧ leetMap ((token.getD i ' ').toLower) ≠ [] := by
  intro i hi
  unfold mappablePositions at hi
  rw [List.mem_filter, List.mem_range] at hi
  obtain ⟨hlt, hmap⟩ := hi
  refine ⟨hlt, ?_⟩
  have hmapd : (token.map Char.toLower).getD i ' ' = (token.getD i ' ').toLower := by
    have h1 : Char.toLower ' ' = ' ' := by decide
    conv_lhs => rw [← h1]
    exact List.getD_map token ' ' Char.toLower
  rw [hmapd] at hmap
  simpa [List.isEmpty_iff] using hmap

theorem mem_intRange (a b y : Int) : y ∈ intRange a b ↔ a ≤ y ∧ y < b := by
  unfold intRange
  simp only [List.mem_map, List.mem_range]
  constructor
  · rintro ⟨i, hi, rfl⟩
    omega
  · rintro ⟨h1, h2⟩
    exact ⟨(y - a).toNat, by omega, by omega⟩

/-! ### Claim theorems -/

/-- C1: for every token that is non-empty after trimming and every
`max_subs ≥ 1`, `leet_variations` returns exactly the set the spec describes:
the trimmed token plus every string obtained by choosing an `r`-element
subset of the mappable positions, `1 ≤ r ≤ min(max_subs, number of mappable
positions)`, and replacing each chosen position by one of the mapped glyphs
of its lowercase character, over every choice of glyph per chosen position. -/
theorem leet_variations_spec (tok : Str) (m : Nat) (hne : pyStrip tok ≠ [])
    (hm : 1 ≤ m) :
    ∀ v, v ∈ leet_variations tok m ↔ LeetSpecMem (pyStrip tok) m v := by
  intro v
  simp only [leet_variations]
  rw [if_neg (by simpa [List.isEmpty_iff] using hne)]
  rw [Finset.mem_insert, List.mem_toFinset, List.mem_flatMap]
  unfold LeetSpecMem
  constructor
  · rintro (rfl | ⟨r, hr, hv⟩)
    · exact Or.inl rfl
    · right
      rw [List.mem_range'] at hr
      obtain ⟨ir, hir, rfl⟩ := hr
      rw [List.mem_flatMap] at hv
      obtain ⟨comb, hcomb, hs⟩ := hv
      rw [List.mem_sublistsLen] at hcomb
      obtain ⟨hsub, hlen⟩ := hcomb
      have hcnd : comb.Nodup := List.Nodup.sublist hsub (mappablePositions_nodup _)
      have hcond : ∀ i ∈ comb, i < (pyStrip tok).length ∧
          leetMap (((pyStrip tok).getD i ' ').toLower) ≠ [] :=
        fun i hi => positions_sound _ i (hsub.subset hi)
      rw [mem_subSeqs comb (pyStrip tok) hcnd hcond v] at hs
      obtain ⟨hl, hin, hout⟩ := hs
      refine ⟨comb.toFinset, fun i hi => hsub.subset (List.mem_toFinset.mp hi), ?_, ?_,
        hl, fun i hi => hin i (List.mem_toFinset.mp hi),
        fun i hi => hout i (fun hc => hi (List.mem_toFinset.mpr hc))⟩
      · rw [List.toFinset_card_of_nodup hcnd]
        omega
      · rw [List.toFinset_card_of_nodup hcnd]
        omega
  · rintro (rfl | ⟨S, hSsub, hS1, hSm, hl, hin, hout⟩)
    · exact Or.inl rfl
    · right
      set P := mappablePositions (pyStrip tok) with hP
      set comb := P.filter (fun i => decide (i ∈ S)) with hcombdef
      have hcsub : comb.Sublist P := List.filter_sublist P
      have hcnd : comb.Nodup := List.Nodup.sublist hcsub (mappablePositions_nodup _)
      have hmemc : ∀ i, i ∈ comb ↔ i ∈ S := by
        intro i
        rw [hcombdef, List.mem_filter]
        simp only [decide_eq_true_eq]
        exact ⟨fun h => h.2, fun h => ⟨hSsub i h, h⟩⟩
      have hclen : comb.length = S.card := by
        rw [← List.toFinset_card_of_nodup hcnd]
        congr 1
        ext i
        rw [List.mem_toFinset, hmemc]
      have hcond : ∀ i ∈ comb, i < (pyStrip tok).length ∧
          leetMap (((pyStrip tok).getD i ' ').toLower) ≠ [] :=
        fun i hi => positions_sound _ i (hcsub.subset hi)
      refine ⟨comb.length, ?_, ?_⟩
      · rw [List.mem_range']
        refine ⟨comb.length - 1, ?_, by omega⟩
        omega
      · rw [List.mem_flatMap]
        refine ⟨comb, ?_, ?_⟩
        · rw [List.mem_sublistsLen]
          exact ⟨hcsub, rfl⟩
        · rw [mem_subSeqs comb (pyStrip tok) hcnd hcond v]
          exact ⟨hl, fun i hi => hin i ((hmemc i).mp hi),
            fun i hi => hout i (fun hS => hi ((hmemc i).mpr hS))⟩

theorem leet_variations_spec_witness :
    leet_variations ['c', 'a', 't'] 2 =
      {['c', 'a', 't'], ['c', '4', 't'], ['c', '@', 't'], ['c', 'a', '7'],
        ['c', '4', '7'], ['c', '@', '7']} ∧
    (∀ v, v ∈ leet_variations ['c', 'a', 't'] 2 ↔
      LeetSpecMem (pyStrip ['c', 'a', 't']) 2 v) :=
  ⟨by decide, leet_variations_spec ['c', 'a', 't'] 2 (by decide) (by decide)⟩

/-- C2: with `include_common_suffixes` enabled, the suffix step of
`generate_wordlist` turns the pre-suffix candidate set `S` into exactly
`S ∪ { b ++ s : b ∈ S, s ∈ common_suffixes }`: bases are drawn only from the
snapshot taken before the step, so no candidate created during the step is
itself suffix-expanded in the same pass; and `candidate_set` with the flag on
is the suffix step applied to the pair-step result. -/
theorem suffix_step_snapshot :
    (∀ S : Finset Str, suffix_step S =
      S ∪ S.biUnion (fun base => (common_suffixes.map (fun s => base ++ s)).toFinset)) ∧
    ∀ (tokens : List Str) (ay : Bool) (current : Int),
      candidate_set tokens ay true current =
        suffix_step (pair_step (clean_tokens_of tokens)
          (base_set (clean_tokens_of tokens) ay current)) :=
  ⟨fun S => suffix_step_eq S, fun _ _ _ => rfl⟩

/-- C3 counterexample: the claim says the pairwise step never adds `a + a` or
`a + "_" + a` for any cleaned-token list including ones with duplicate values,
but `itertools.permutations` excludes only duplicate positions: on the cleaned
token list `["x", "x"]` (arising from the raw input `["x", "x"]`) the step
adds both `"xx"` and `"x_x"`. -/
theorem pair_step_self_pair_on_duplicates :
    clean_tokens_of [['x'], ['x']] = [['x'], ['x']] ∧
    ['x', 'x'] ∈ pair_step [['x'], ['x']] ∅ ∧
    ['x', '_', 'x'] ∈ pair_step [['x'], ['x']] ∅ := by decide

/-- C3 (amended): the pairwise-combination step adds, for every ordered pair
of DISTINCT POSITIONS `(i, j)` of the cleaned-token list, both
`ts[i] ++ ts[j]` and `ts[i] ++ "_" ++ ts[j]`, and nothing else; `perm2`
enumerates exactly the distinct-position pairs, so when the cleaned-token
list has no duplicate values no pair has equal components and no `a + a` or
`a + "_" + a` arises, but lists with duplicate token values do produce
self-pair values. -/
theorem pair_step_characterization :
    (∀ (ts : List Str) (S : Finset Str),
      pair_step ts S = S ∪ ((perm2 ts).flatMap
        (fun p => [p.1 ++ p.2, p.1 ++ '_' :: p.2])).toFinset) ∧
    (∀ (ts : List Str) (p : Str × Str),
      p ∈ perm2 ts ↔ ∃ i j, i < ts.length ∧ j < ts.length ∧ i ≠ j ∧
        p.1 = ts.getD i [] ∧ p.2 = ts.getD j []) ∧
    (∀ ts : List Str, ts.Nodup → ∀ p ∈ perm2 ts, p.1 ≠ p.2) :=
  ⟨fun ts S => pair_step_eq ts S, fun ts p => mem_perm2 [] ts p,
    fun _ h => perm2_ne_of_nodup h⟩

theorem pair_step_characterization_witness :
    pair_step [['a'], ['b']] ∅ = (∅ : Finset Str) ∪ ((perm2 [['a'], ['b']]).flatMap
      (fun p => [p.1 ++ p.2, p.1 ++ '_' :: p.2])).toFinset ∧
    ([['a'], ['b']] : List Str).Nodup ∧
    ∀ p ∈ perm2 [['a'], ['b']], p.1 ≠ p.2 :=
  ⟨pair_step_characterization.1 [['a'], ['b']] ∅, by decide,
    pair_step_characterization.2.2 [['a'], ['b']] (by decide)⟩

/-- C7: when every supplied token is empty after trimming (in particular for
the empty token list), `generate_wordlist` returns the empty sequence for
every `max_words`, `append_years_flag` and `include_common_suffixes`. -/
theorem generate_wordlist_degenerate (tokens : List Str)
    (h : ∀ t ∈ tokens, pyStrip t = []) (N : Nat) (ay ics : Bool) (current : Int) :
    generate_wordlist tokens N ay ics current = [] := by
  have hclean : clean_tokens_of tokens = [] := by
    unfold clean_tokens_of
    rw [List.filter_eq_nil_iff.mpr, List.map_nil]
    intro t ht
    simp [h t ht]
  have hp : pair_step [] (base_set [] ay current) = ∅ := by
    simp [pair_step, perm2, base_set]
  have hcand : candidate_set tokens ay ics current = ∅ := by
    simp only [candidate_set, hclean, hp]
    cases ics
    · simp
    · simp [suffix_step]
  unfold generate_wordlist
  rw [hcand]
  simp

theorem generate_wordlist_degenerate_witness :
    (∀ t ∈ [([] : Str), [' ', ' ']], pyStrip t = []) ∧
    generate_wordlist [([] : Str), [' ', ' ']] 5 true true 2025 = [] :=
  ⟨by decide, generate_wordlist_degenerate _ (by decide) 5 true true 2025⟩

/-- C8: on the fallback path (zxcvbn unavailable), for every non-empty
password the returned entropy is `len(password) * pool.bit_length()` with the
pool summing 26 / 26 / 10 / 32 for the presence of lowercase / uppercase /
digit / non-alphanumeric characters, the returned score is bucketed at the
thresholds 28, 36, 60, 90, and `pyBitLength` is Python's `int.bit_length`
(zero at zero, otherwise `log2 + 1`). -/
theorem analyze_password_fallback (p : Str) (h : p ≠ []) :
    (analyze_password p).2 = p.length * pyBitLength (fallback_pool p) ∧
    (analyze_password p).1 = some (
      if p.length * pyBitLength (fallback_pool p) < 28 then 0
      else if p.length * pyBitLength (fallback_pool p) < 36 then 1
      else if p.length * pyBitLength (fallback_pool p) < 60 then 2
      else if p.length * pyBitLength (fallback_pool p) < 90 then 3 else 4) ∧
    (∀ n : Nat, pyBitLength n = if n = 0 then 0 else Nat.log2 n + 1) := by
  have hne : p.isEmpty = false := by simpa [List.isEmpty_iff] using h
  unfold analyze_password
  rw [hne]
  exact ⟨rfl, rfl, pyBitLength_eq⟩

theorem analyze_password_fallback_witness :
    (['a', 'b', 'c'] : Str) ≠ [] ∧
    (analyze_password ['a', 'b', 'c']).2 =
      (['a', 'b', 'c'] : Str).length * pyBitLength (fallback_pool ['a', 'b', 'c']) :=
  ⟨by decide, (analyze_password_fallback ['a', 'b', 'c'] (by decide)).1⟩

/-- C9: `generate_wordlist` is deterministic: beyond its explicit arguments
its result depends only on the clock year (modelled as the `current`
parameter), so two calls with identical arguments and the same clock reading
return identical output sequences. -/
theorem generate_wordlist_deterministic (tokens : List Str) (N : Nat) (ay ics : Bool)
    (y1 y2 : Int) (h : y1 = y2) :
    generate_wordlist tokens N ay ics y1 = generate_wordlist tokens N ay ics y2 := by
  rw [h]

theorem generate_wordlist_deterministic_witness :
    (2025 : Int) = 2025 ∧
    generate_wordlist [['a']] 100 true true 2025 =
      generate_wordlist [['a']] 100 true true 2025 :=
  ⟨rfl, generate_wordlist_deterministic [['a']] 100 true true 2025 2025 rfl⟩

/-- C4: for every token list and every `max_words = N`, the returned sequence
is the lexicographically sorted listing of the accumulated candidate set,
truncated to its first `N` elements in sort order when the set has more than
`N` elements; consequently it has length at most `N`, is strictly
lexicographically ascending, and has no duplicates. -/
theorem generate_wordlist_cap_sorted (tokens : List Str) (N : Nat) (ay ics : Bool)
    (current : Int) :
    generate_wordlist tokens N ay ics current =
      (if N < (candidate_set tokens ay ics current).card
        then ((candidate_set tokens ay ics current).sort (· ≤ ·)).take N
        else (candidate_set tokens ay ics current).sort (· ≤ ·)) ∧
    (generate_wordlist tokens N ay ics current).length ≤ N ∧
    List.Sorted (· < ·) (generate_wordlist tokens N ay ics current) ∧
    (generate_wordlist tokens N ay ics current).Nodup := by
  have hmain : generate_wordlist tokens N ay ics current =
      (if N < (candidate_set tokens ay ics current).card
        then ((candidate_set tokens ay ics current).sort (· ≤ ·)).take N
        else (candidate_set tokens ay ics current).sort (· ≤ ·)) := by
    simp only [generate_wordlist]
    by_cases hc : N < (candidate_set tokens ay ics current).card
    · simp only [if_pos hc]
      exact sort_take_eq _ N
    · simp only [if_neg hc]
  refine ⟨hmain, ?_, ?_, ?_⟩
  · rw [hmain]
    by_cases hc : N < (candidate_set tokens ay ics current).card
    · simp only [if_pos hc, List.length_take, Finset.length_sort]
      omega
    · simp only [if_neg hc, Finset.length_sort]
      omega
  · rw [hmain]
    by_cases hc : N < (candidate_set tokens ay ics current).card
    · simp only [if_pos hc]
      exact List.Pairwise.sublist (List.take_sublist _ _) (Finset.sort_sorted_lt _)
    · simp only [if_neg hc]
      exact Finset.sort_sorted_lt _
  · rw [hmain]
    by_cases hc : N < (candidate_set tokens ay ics current).card
    · simp only [if_pos hc]
      exact List.Nodup.sublist (List.take_sublist _ _) (Finset.sort_nodup _ _)
    · simp only [if_neg hc]
      exact Finset.sort_nodup _ _

/-- C5: for every input token that is non-empty after trimming, the candidate
set accumulated by `generate_wordlist` before the size cap contains the
trimmed token, its lowercase, uppercase and capitalized forms, and every leet
variant of it (for any flag settings and clock year). -/
theorem candidate_set_contains_case_and_leet (tokens : List Str) (t : Str)
    (ht : t ∈ tokens) (hne : pyStrip t ≠ []) (ay ics : Bool) (current : Int) :
    pyStrip t ∈ candidate_set tokens ay ics current ∧
    pyLower (pyStrip t) ∈ candidate_set tokens ay ics current ∧
    pyUpper (pyStrip t) ∈ candidate_set tokens ay ics current ∧
    pyCapitalize (pyStrip t) ∈ candidate_set tokens ay ics current ∧
    ∀ v ∈ leet_variations (pyStrip t) 2, v ∈ candidate_set tokens ay ics current := by
  have hct := mem_clean_tokens tokens t ht hne
  have key : ∀ x : Str, (∀ a : Finset Str, x ∈ add_token_step ay current a (pyStrip t)) →
      x ∈ candidate_set tokens ay ics current := fun x hx =>
    mem_candidate_set_of_base tokens ay ics current x
      (mem_foldl_add_token ay current x (clean_tokens_of tokens) ∅ (pyStrip t) hct hx)
  exact ⟨key _ (fun a => (add_token_mem_self ay current a _).1),
    key _ (fun a => (add_token_mem_self ay current a _).2.1),
    key _ (fun a => (add_token_mem_self ay current a _).2.2.1),
    key _ (fun a => (add_token_mem_self ay current a _).2.2.2.1),
    fun v hv => key v (fun a => (add_token_mem_self ay current a _).2.2.2.2 v hv)⟩

theorem candidate_set_contains_witness :
    ['A', 'l', 'i', 'c', 'e'] ∈ candidate_set [['A', 'l', 'i', 'c', 'e']] true true 2025 ∧
    ['a', 'l', 'i', 'c', 'e'] ∈ candidate_set [['A', 'l', 'i', 'c', 'e']] true true 2025 ∧
    ['A', 'L', 'I', 'C', 'E'] ∈ candidate_set [['A', 'l', 'i', 'c', 'e']] true true 2025 ∧
    ['4', 'l', 'i', 'c', 'e'] ∈ candidate_set [['A', 'l', 'i', 'c', 'e']] true true 2025 ∧
    ['@', 'l', 'i', 'c', 'e'] ∈ candidate_set [['A', 'l', 'i', 'c', 'e']] true true 2025 := by
  have h := candidate_set_contains_case_and_leet [['A', 'l', 'i', 'c', 'e']]
    ['A', 'l', 'i', 'c', 'e'] (by decide) (by decide) true true 2025
  exact ⟨h.1, h.2.1, h.2.2.1, h.2.2.2.2 ['4', 'l', 'i', 'c', 'e'] (by decide),
    h.2.2.2.2 ['@', 'l', 'i', 'c', 'e'] (by decide)⟩

/-- C6: for every `years_back ≥ 1` and token non-empty after trimming,
`append_recent_years` returns exactly the set of the trimmed token followed
by `str(y)` for `currentYear - years_back + 1 ≤ y ≤ currentYear`, where
`currentYear` is the clock year at call time (the `current` parameter); for
an empty or whitespace-only token it returns the empty set. -/
theorem append_recent_years_range (tok : Str) (yb current : Int) (hyb : 1 ≤ yb) :
    (pyStrip tok ≠ [] → ∀ v, v ∈ append_recent_years tok yb current ↔
      ∃ y : Int, current - yb + 1 ≤ y ∧ y ≤ current ∧ v = pyStrip tok ++ intStr y) ∧
    (pyStrip tok = [] → append_recent_years tok yb current = ∅) := by
  constructor
  · intro hne v
    simp only [append_recent_years]
    rw [if_neg (by simpa [List.isEmpty_iff] using hne)]
    simp only [Finset.mem_image, List.mem_toFinset, List.mem_map]
    constructor
    · rintro ⟨s, hs, rfl⟩
      obtain ⟨y, hy, rfl⟩ := hs
      rw [mem_intRange] at hy
      exact ⟨y, by omega, by omega, rfl⟩
    · rintro ⟨y, h1, h2, rfl⟩
      exact ⟨intStr y, ⟨y, (mem_intRange _ _ _).mpr ⟨h1, by omega⟩, rfl⟩, rfl⟩
  · intro he
    simp only [append_recent_years]
    rw [if_pos (by simpa [List.isEmpty_iff] using he)]

theorem append_recent_years_range_witness :
    append_recent_years ['d', 'o', 'g'] 3 2025 =
      {['d', 'o', 'g', '2', '0', '2', '3'], ['d', 'o', 'g', '2', '0', '2', '4'],
        ['d', 'o', 'g', '2', '0', '2', '5']} ∧
    (1 : Int) ≤ 3 ∧
    (['d', 'o', 'g', '2', '0', '2', '4'] ∈ append_recent_years ['d', 'o', 'g'] 3 2025 ↔
      ∃ y : Int, 2025 - 3 + 1 ≤ y ∧ y ≤ 2025 ∧
        ['d', 'o', 'g', '2', '0', '2', '4'] = pyStrip ['d', 'o', 'g'] ++ intStr y) :=
  ⟨by decide, by decide,
    (append_recent_years_range ['d', 'o', 'g'] 3 2025 (by decide)).1 (by decide) _⟩

/-- C10: `leet_variations` is monotone in the substitution bound: for every
token and every `k ≥ 1`, every variant produced with bound `k` is also
produced with bound `k + 1`. -/
theorem leet_variations_monotone (tok : Str) (k : Nat) (hk : 1 ≤ k) :
    leet_variations tok k ⊆ leet_variations tok (k + 1) := by
  simp only [leet_variations]
  by_cases he : (pyStrip tok).isEmpty = true
  · rw [if_pos he, if_pos he]
  · rw [if_neg he, if_neg he]
    intro v hv
    rcases Finset.mem_insert.mp hv with rfl | hv'
    · exact Finset.mem_insert_self _ _
    · refine Finset.mem_insert_of_mem ?_
      rw [List.mem_toFinset, List.mem_flatMap] at hv' ⊢
      obtain ⟨r, hr, hvr⟩ := hv'
      refine ⟨r, ?_, hvr⟩
      rw [List.mem_range'] at hr ⊢
      obtain ⟨i, hi, rfl⟩ := hr
      exact ⟨i, by omega, rfl⟩

theorem leet_variations_monotone_witness :
    1 ≤ 1 ∧ leet_variations ['c', 'a', 't'] 1 ⊆ leet_variations ['c', 'a', 't'] 2 :=
  ⟨by decide, leet_variations_monotone ['c', 'a', 't'] 1 (by decide)⟩

example : leet_variations ['c', 'a', 't'] 2 =
    {['c', 'a', 't'], ['c', '4', 't'], ['c', '@', 't'], ['c', 'a', '7'],
      ['c', '4', '7'], ['c', '@', '7']} := by decide

example : append_recent_years ['d', 'o', 'g'] 3 2025 =
    {['d', 'o', 'g', '2', '0', '2', '3'], ['d', 'o', 'g', '2', '0', '2', '4'],
      ['d', 'o', 'g', '2', '0', '2', '5']} := by decide

example : ['x', 'x'] ∈ pair_step [['x'], ['x']] ∅ := by decide

example : analyze_password ['a', 'b', 'c'] = (some 0, 15) := by decide

end WordlistGen
